import Mathlib

/-!
Shallow embedding of the `rsdiv_jax` repository.

Part 1 models `src/rsdiv/diversity/mmr.py` (`MaximalMarginalRelevance.rerank`).
Scores live in `WithBot ℚ`: `⊥` plays the role of `-inf` used by the code as a
masking sentinel; all genuine quality/similarity values are finite rationals.

Part 2 models `src/rsdiv/recommenders/base.py` (`BaseRecommender`).
-/

/-- Extended score: a finite rational or `-inf` (the masking sentinel). -/
abbrev EScore := WithBot ℚ

/-- Embed a finite rational into the extended scores. -/
def toE (x : ℚ) : EScore := x

/-- `jnp.max(..., axis=1)` applied to one row: maximum of a list of extended
scores, `⊥` on the empty list. -/
def rowMax (l : List EScore) : EScore := l.foldr max ⊥

/-- `jnp.argmax`: index of the first occurrence of the maximum. On the empty
list (where jax would fail) we return the junk value `0`; every use below is on
a nonempty list. -/
def argmax : List EScore → ℕ
  | [] => 0
  | v :: rest => if rowMax rest ≤ v then 0 else argmax rest + 1

/-- One MMR score: `lbd * q - (1 - lbd) * m` where `m` is a row maximum of the
(partially masked) similarity matrix.  In every reachable state `m ≠ ⊥`
(strictly fewer than `n` columns are ever masked), so the `⊥` branch is
unreachable on well-formed square inputs. -/
def mmrScore (lbd q : ℚ) : EScore → EScore
  | ⊥ => ⊥
  | (r : ℚ) => ((lbd * q - (1 - lbd) * r : ℚ) : EScore)

/-- `similarity_scores.at[:, j].set(-inf)`: mask column `j` of the matrix. -/
def maskCol (sim : List (List EScore)) (j : ℕ) : List (List EScore) :=
  sim.map (fun row => row.set j ⊥)

/-- Mask every column listed in `sel`. -/
def maskCols (sim : List (List EScore)) (sel : List ℕ) : List (List EScore) :=
  sel.foldl maskCol sim

/-- The vector `scores` computed inside the loop of `rerank`:
`lbd * quality - (1-lbd) * max(similarity, axis=1)` followed by
`scores.at[new_selection].set(-inf)` (masking every already selected index). -/
def scoresList (lbd : ℚ) (q : List ℚ) (sel : List ℕ) (sim : List (List EScore)) :
    List EScore :=
  (List.range q.length).map (fun i =>
    if i ∈ sel then ⊥ else mmrScore lbd (q.getD i 0) (rowMax (sim.getD i [])))

/-- The `for _ in range(k - 1)` loop of `rerank`, carrying the selection list
and the progressively masked similarity matrix. -/
def mmrLoop (lbd : ℚ) (q : List ℚ) :
    ℕ → List ℕ × List (List EScore) → List ℕ × List (List EScore)
  | 0, st => st
  | fuel + 1, (sel, sim) =>
      let j := argmax (scoresList lbd q sel sim)
      mmrLoop lbd q fuel (sel ++ [j], maskCol sim j)

/-- The reranker class of `mmr.py`; its only state is the trade-off `lbd`. -/
structure MaximalMarginalRelevance where
  lbd : ℚ

/-- `MaximalMarginalRelevance.rerank` from `mmr.py`:
`k = min(k, n)`; the first selection is the quality argmax; its similarity
column is masked; then `k - 1` further greedy picks.  `k` is an integer as in
Python; for `k ≤ 1` the loop body never runs and the result is the single
initial selection. -/
def MaximalMarginalRelevance.rerank (self : MaximalMarginalRelevance)
    (quality_scores : List ℚ) (similarity_scores : List (List ℚ)) (k : ℤ) :
    List ℕ :=
  let n := quality_scores.length
  let k2 := min k (n : ℤ)
  let first := argmax (quality_scores.map toE)
  let sim0 := similarity_scores.map (fun row => row.map toE)
  (mmrLoop self.lbd quality_scores (k2 - 1).toNat
    ([first], maskCol sim0 first)).1

/-- Square input: the similarity matrix is `n × n` for `n` the number of
candidates (the shapes jax's broadcasting requires of `rerank`). -/
def Square (q : List ℚ) (sim : List (List ℚ)) : Prop :=
  sim.length = q.length ∧ ∀ row ∈ sim, row.length = q.length

/-- Embed a rational matrix into extended scores. -/
def toEMatrix (sim : List (List ℚ)) : List (List EScore) :=
  sim.map (fun row => row.map toE)

/-- Modelled from the spec's words for the λ = 1 limit: index `i` comes before
index `j` in the descending order of the quality scores when `i`'s quality is
strictly larger, or the qualities tie and `i` is the smaller (first occurring)
index. -/
def qBefore (q : List ℚ) (i j : ℕ) : Prop :=
  q.getD j 0 < q.getD i 0 ∨ (q.getD i 0 = q.getD j 0 ∧ i ≤ j)

instance (q : List ℚ) : DecidableRel (qBefore q) := fun i j =>
  inferInstanceAs
    (Decidable (q.getD j 0 < q.getD i 0 ∨ (q.getD i 0 = q.getD j 0 ∧ i ≤ j)))

instance (q : List ℚ) : IsTotal ℕ (qBefore q) := ⟨by
  intro i j
  rcases lt_trichotomy (q.getD i 0) (q.getD j 0) with h | h | h
  · exact Or.inr (Or.inl h)
  · rcases Nat.le_total i j with hij | hij
    · exact Or.inl (Or.inr ⟨h, hij⟩)
    · exact Or.inr (Or.inr ⟨h.symm, hij⟩)
  · exact Or.inl (Or.inl h)⟩

instance (q : List ℚ) : IsTrans ℕ (qBefore q) := ⟨by
  intro a b c hab hbc
  rcases hab with h1 | ⟨h1, h1'⟩ <;> rcases hbc with h2 | ⟨h2, h2'⟩
  · exact Or.inl (lt_trans h2 h1)
  · exact Or.inl (by rw [← h2]; exact h1)
  · exact Or.inl (by rw [h1]; exact h2)
  · exact Or.inr ⟨h1.trans h2, le_trans h1' h2'⟩⟩

instance (q : List ℚ) : IsAntisymm ℕ (qBefore q) := ⟨by
  intro a b hab hba
  rcases hab with h1 | ⟨h1, h1'⟩ <;> rcases hba with h2 | ⟨h2, h2'⟩
  · exact absurd h1 (lt_asymm h2)
  · exact absurd h1 (by rw [h2]; exact lt_irrefl _)
  · exact absurd h2 (by rw [h1]; exact lt_irrefl _)
  · exact Nat.le_antisymm h1' h2'⟩

/-- Modelled from the spec's words: the descending order of the quality
scores — the index list `0..n-1` sorted by strictly-larger quality, ties broken
by first occurrence (lowest index first). -/
def specDescOrder (q : List ℚ) : List ℕ :=
  List.insertionSort (qBefore q) (List.range q.length)

/-!
Part 2: `src/rsdiv/recommenders/base.py` (`BaseRecommender`).

Raw user/item identifiers are arbitrary values of linearly ordered types (the
order models pandas' sorting of `Categorical` categories).  Interaction values
are exact rationals.  The two external effectful dependencies are modelled as
oracle fields: `splitOracle` stands for `sklearn.train_test_split(...,
random_state=42)` and `partitionOracle` for `np.argpartition` (whose output
order within each side of the partition is unspecified); theorems that depend
on their guarantees take those guarantees as hypotheses.  The abstract
`predict` method is modelled by the elementwise `scorer` field. -/

/-- `pd.Categorical(column).codes`: pandas sorts the distinct values and the
code of `x` is its rank — the number of distinct values strictly below `x`. -/
def catCode {γ : Type*} [LinearOrder γ] (l : List γ) (x : γ) : ℕ :=
  (l.toFinset.filter (fun y => y < x)).card

/-- Modelled from the spec's words: first-seen coding — the code of `x` is the
number of distinct values occurring strictly before the first occurrence of
`x` (so the i-th distinct value encountered top-to-bottom receives code i). -/
def firstSeenCode {γ : Type*} [DecidableEq γ] (l : List γ) (x : γ) : ℕ :=
  ((l.take (l.indexOf x)).toFinset).card

/-- `BaseRecommender.get_interaction`: truncate to the first three columns and
replace the raw user and item identifiers by their categorical codes. -/
def get_interaction {α β : Type*} [LinearOrder α] [LinearOrder β]
    (rows : List (α × β × ℚ)) : List (ℕ × ℕ × ℚ) :=
  rows.map (fun r => (catCode (rows.map (fun p => p.1)) r.1,
    catCode (rows.map (fun p => p.2.1)) r.2.1, r.2.2))

/-- Truncation toward zero: the first step of casting a real value to a
`numpy` integer dtype (C truncation semantics). -/
def ratTrunc (v : ℚ) : ℤ := if 0 ≤ v then ⌊v⌋ else ⌈v⌉

/-- Reduction of an integer into the int32 range `[-2^31, 2^31)` by
two's-complement wraparound: an `"int32"` array can only hold values in that
range, it holds every in-range value exactly, and wraparound is numpy's
defined cast semantics for integer sources. -/
def int32cast (t : ℤ) : ℤ := (t + 2147483648) % 4294967296 - 2147483648

/-- A `scipy.sparse.coo_matrix`: an explicit shape plus the unaggregated
`(row, col, data)` entries.  The `data` field of an `"int32"` matrix holds
int32 values, so every stored entry is the `int32cast` image of the truncated
input value and lies in `[-2^31, 2^31)`. -/
structure CooMatrix where
  shape : ℕ × ℕ
  entries : List (ℕ × ℕ × ℤ)

/-- The state of `BaseRecommender` plus oracles for its external
dependencies (`train_test_split`, `np.argpartition`) and for the abstract
`predict` method (`scorer`, applied elementwise). -/
structure BaseRecommender (α β : Type*) [LinearOrder α] [LinearOrder β] where
  raw_interaction : List (α × β × ℚ)
  test_size : ℚ
  random_split : Bool
  splitOracle : List (ℕ × ℕ × ℚ) → List (ℕ × ℕ × ℚ) × List (ℕ × ℕ × ℚ)
  scorer : ℕ → ℕ → ℚ
  partitionOracle : List EScore → ℕ → List ℕ

variable {α β : Type*} [LinearOrder α] [LinearOrder β]

/-- `self.df_interaction = self.get_interaction(df_interaction)`. -/
def BaseRecommender.df_interaction (rec : BaseRecommender α β) :
    List (ℕ × ℕ × ℚ) := get_interaction rec.raw_interaction

/-- `self.n_users = self.df_interaction.max()[0] + 1` (column-wise max). -/
def BaseRecommender.n_users (rec : BaseRecommender α β) : ℕ :=
  (rec.df_interaction.map (fun r => r.1)).foldr max 0 + 1

/-- `self.n_items = self.df_interaction.max()[1] + 1` (column-wise max). -/
def BaseRecommender.n_items (rec : BaseRecommender α β) : ℕ :=
  (rec.df_interaction.map (fun r => r.2.1)).foldr max 0 + 1

/-- The split performed by `process_interaction`: a deterministic head/tail
split when `not random_split and test_size > 1`, otherwise
`train_test_split(..., random_state=42)` (the `splitOracle`). -/
def BaseRecommender.trainTest (rec : BaseRecommender α β) :
    List (ℕ × ℕ × ℚ) × List (ℕ × ℕ × ℚ) :=
  if rec.random_split = false ∧ 1 < rec.test_size then
    (rec.df_interaction.drop (ratTrunc rec.test_size).toNat,
     rec.df_interaction.take (ratTrunc rec.test_size).toNat)
  else rec.splitOracle rec.df_interaction

/-- `process_interaction`: build the two coo matrices with the explicit shape
`(n_users, n_items)` and dtype `"int32"` (values truncated to integers and
reduced into the int32 range). -/
def BaseRecommender.process_interaction (rec : BaseRecommender α β) :
    CooMatrix × CooMatrix :=
  (⟨(rec.n_users, rec.n_items),
      rec.trainTest.1.map (fun r => (r.1, r.2.1, int32cast (ratTrunc r.2.2)))⟩,
   ⟨(rec.n_users, rec.n_items),
      rec.trainTest.2.map (fun r => (r.1, r.2.1, int32cast (ratTrunc r.2.2)))⟩)

/-- `self.train_mat`. -/
def BaseRecommender.train_mat (rec : BaseRecommender α β) : CooMatrix :=
  rec.process_interaction.1

/-- `self.test_mat`. -/
def BaseRecommender.test_mat (rec : BaseRecommender α β) : CooMatrix :=
  rec.process_interaction.2

/-- `predict_for_userId`: score every item id `0..n_items-1` for this user. -/
def BaseRecommender.predict_for_userId (rec : BaseRecommender α β)
    (user_id : ℕ) : List ℚ :=
  (List.range rec.n_items).map (rec.scorer user_id)

/-- `seen = self.df_interaction[self.df_interaction["userId"] == user_id]
["itemId"]`: the item codes of every interaction of this user in the full
normalized table. -/
def BaseRecommender.seenItems (rec : BaseRecommender α β) (user_id : ℕ) :
    List ℕ :=
  (rec.df_interaction.filter (fun r => r.1 == user_id)).map (fun r => r.2.1)

/-- `predict_for_userId_unseen`: the raw scores with every seen item masked to
`-inf` (`prediction[seen] = -np.inf`). -/
def BaseRecommender.predict_for_userId_unseen (rec : BaseRecommender α β)
    (user_id : ℕ) : List EScore :=
  (List.range rec.n_items).map (fun i =>
    if i ∈ rec.seenItems user_id then ⊥ else toE (rec.scorer user_id i))

/-- The item codes the user has not interacted with. -/
def BaseRecommender.unseenItems (rec : BaseRecommender α β) (user_id : ℕ) :
    List ℕ :=
  (List.range rec.n_items).filter (fun i => decide (i ∉ rec.seenItems user_id))

/-- The errors the `predict_top_n_unseen` path can actually raise: numpy's
`ValueError` when `np.argpartition`'s `kth` is out of bounds.  (No
`InvalidUserError` exists anywhere in the code.) -/
inductive RecError where
  | kthOutOfBounds : RecError
deriving DecidableEq

/-- The guarantee `np.argpartition(-p, kth)` gives about its output `pi`: a
permutation of all indices in which every position before `kth` holds an
element at least as large (in `p`; `-p` reverses the order) as every element
at position `kth` or later. -/
def ValidArgpartition (p : List EScore) (kth : ℕ) (pi : List ℕ) : Prop :=
  pi.Perm (List.range p.length) ∧
  ∀ a, a < kth → ∀ b, b < pi.length → kth ≤ b →
    p.getD (pi.getD b 0) ⊥ ≤ p.getD (pi.getD a 0) ⊥

/-- `predict_top_n_unseen`: mask seen items, `np.argpartition(-prediction,
top_n)`, keep the first `top_n` indices and return the mapping from each kept
index to its (possibly `-inf`) score.  `np.argpartition` raises `ValueError`
when `kth = top_n` is out of bounds, i.e. unless `top_n < n_items`. -/
def BaseRecommender.predict_top_n_unseen (rec : BaseRecommender α β)
    (user_id top_n : ℕ) : Except RecError (List (ℕ × EScore)) :=
  let p := rec.predict_for_userId_unseen user_id
  if top_n < p.length then
    Except.ok (((rec.partitionOracle p top_n).take top_n).map
      (fun key => (key, p.getD key ⊥)))
  else Except.error RecError.kthOutOfBounds

/-- A small concrete recommender used by witnesses and counterexamples:
user `0` has interacted with both items (`0` with value `7/2`, `1` with
value `1`), `random_split` is true and the split oracle puts everything in
train, the scorer is constantly `0`, and the argpartition oracle returns
`[0, 1]`. -/
def rec0 : BaseRecommender ℕ ℕ where
  raw_interaction := [(0, 0, 7/2), (0, 1, 1)]
  test_size := 3/10
  random_split := true
  splitOracle := fun l => (l, [])
  scorer := fun _ _ => 0
  partitionOracle := fun _ _ => [0, 1]

/-- A concrete recommender holding a single interaction whose value
`4294967297/2 = 2^31 + 1/2` is a non-integer real whose truncation `2^31`
does not fit in an int32. -/
def rec9 : BaseRecommender ℕ ℕ where
  raw_interaction := [(0, 0, 4294967297/2)]
  test_size := 3/10
  random_split := true
  splitOracle := fun l => (l, [])
  scorer := fun _ _ => 0
  partitionOracle := fun _ _ => [0]

/-- The codes assigned to a column are dense, zero-based and follow the
ascending order of the raw values: every code is below the number of distinct
raw values, the coding is strictly monotone and injective on the values
occurring in the column, and every code below the number of distinct values is
hit. -/
def DenseSortedCoding {γ : Type*} [LinearOrder γ] (l : List γ) : Prop :=
  (∀ x ∈ l, catCode l x < l.toFinset.card) ∧
  (∀ x ∈ l, ∀ y ∈ l, x < y → catCode l x < catCode l y) ∧
  (∀ x ∈ l, ∀ y ∈ l, catCode l x = catCode l y → x = y) ∧
  (∀ c, c < l.toFinset.card → ∃ x ∈ l, catCode l x = c)

instance (p : List EScore) (kth : ℕ) (pi : List ℕ) :
    Decidable (ValidArgpartition p kth pi) :=
  inferInstanceAs (Decidable (pi.Perm (List.range p.length) ∧
    ∀ a, a < kth → ∀ b, b < pi.length → kth ≤ b →
      p.getD (pi.getD b 0) ⊥ ≤ p.getD (pi.getD a 0) ⊥))

lemma rowMax_cons (v : EScore) (l : List EScore) :
    rowMax (v :: l) = max v (rowMax l) := rfl

lemma le_rowMax_of_mem {l : List EScore} {x : EScore} (hx : x ∈ l) :
    x ≤ rowMax l := by
  induction l with
  | nil => cases hx
  | cons a l ih =>
    rcases List.mem_cons.mp hx with h | h
    · subst h; exact le_max_left _ _
    · exact le_trans (ih h) (le_max_right _ _)

lemma argmax_lt_length {l : List EScore} (h : l ≠ []) :
    argmax l < l.length := by
  induction l with
  | nil => exact absurd rfl h
  | cons v rest ih =>
    by_cases hc : rowMax rest ≤ v
    · simp [argmax, hc]
    · have hrest : rest ≠ [] := by
        rintro rfl
        exact hc bot_le
      simp only [argmax, if_neg hc, List.length_cons]
      exact Nat.succ_lt_succ (ih hrest)

lemma getD_argmax {l : List EScore} (h : l ≠ []) :
    l.getD (argmax l) ⊥ = rowMax l := by
  induction l with
  | nil => exact absurd rfl h
  | cons v rest ih =>
    by_cases hc : rowMax rest ≤ v
    · simp [argmax, hc, rowMax_cons, max_eq_left hc]
    · have hrest : rest ≠ [] := by rintro rfl; exact hc bot_le
      simp only [argmax, if_neg hc, List.getD_cons_succ, rowMax_cons]
      rw [ih hrest, max_eq_right (le_of_lt (not_le.mp hc))]

lemma getD_lt_rowMax_of_lt_argmax {l : List EScore} {i : ℕ} (h : i < argmax l) :
    l.getD i ⊥ < rowMax l := by
  induction l generalizing i with
  | nil => simp [argmax] at h
  | cons v rest ih =>
    by_cases hc : rowMax rest ≤ v
    · simp [argmax, hc] at h
    · simp only [argmax, if_neg hc] at h
      cases i with
      | zero =>
        simpa [rowMax_cons, max_eq_right (le_of_lt (not_le.mp hc))]
          using not_le.mp hc
      | succ j =>
        have := ih (Nat.lt_of_succ_lt_succ h)
        simpa [rowMax_cons, max_eq_right (le_of_lt (not_le.mp hc))] using this

lemma mmrLoop_fst_length (lbd : ℚ) (q : List ℚ) (fuel : ℕ)
    (st : List ℕ × List (List EScore)) :
    ((mmrLoop lbd q fuel st).1).length = st.1.length + fuel := by
  induction fuel generalizing st with
  | zero => rfl
  | succ f ih =>
    obtain ⟨sel, sim⟩ := st
    simp only [mmrLoop, ih, List.length_append, List.length_cons,
      List.length_nil]
    omega

lemma mmrLoop_add (lbd : ℚ) (q : List ℚ) (f g : ℕ)
    (st : List ℕ × List (List EScore)) :
    mmrLoop lbd q (f + g) st = mmrLoop lbd q g (mmrLoop lbd q f st) := by
  induction f generalizing st with
  | zero => rw [Nat.zero_add]; rfl
  | succ f ih =>
    obtain ⟨sel, sim⟩ := st
    have hfg : f + 1 + g = (f + g) + 1 := by omega
    rw [hfg]
    simp only [mmrLoop]
    exact ih _

lemma prefix_mmrLoop (lbd : ℚ) (q : List ℚ) (fuel : ℕ)
    (st : List ℕ × List (List EScore)) :
    st.1 <+: (mmrLoop lbd q fuel st).1 := by
  induction fuel generalizing st with
  | zero => exact List.prefix_refl _
  | succ f ih =>
    obtain ⟨sel, sim⟩ := st
    simp only [mmrLoop]
    exact List.IsPrefix.trans (List.prefix_append sel _)
      (ih (sel ++ [argmax (scoresList lbd q sel sim)],
        maskCol sim (argmax (scoresList lbd q sel sim))))

lemma set_bot_getD (row : List EScore) (j c : ℕ) :
    (row.set j ⊥).getD c ⊥ = if c = j then ⊥ else row.getD c ⊥ := by
  induction row generalizing j c with
  | nil => simp
  | cons a l ih =>
    cases j with
    | zero =>
      cases c with
      | zero => simp
      | succ c => simp
    | succ j =>
      cases c with
      | zero => simp
      | succ c => simpa using ih j c

lemma maskCol_getD (sim : List (List EScore)) (i j : ℕ) :
    (maskCol sim j).getD i [] = (sim.getD i []).set j ⊥ := by
  induction sim generalizing i with
  | nil => cases i <;> simp [maskCol]
  | cons r s ih =>
    cases i with
    | zero => simp [maskCol]
    | succ i => simpa [maskCol] using ih i

lemma maskCol_length (sim : List (List EScore)) (j : ℕ) :
    (maskCol sim j).length = sim.length := by
  simp [maskCol]

lemma maskCols_getD_getD (sel : List ℕ) (sim : List (List EScore)) (i c : ℕ) :
    ((maskCols sim sel).getD i []).getD c ⊥ =
      if c ∈ sel then ⊥ else (sim.getD i []).getD c ⊥ := by
  induction sel generalizing sim with
  | nil => simp [maskCols]
  | cons a sel ih =>
    have h1 : maskCols sim (a :: sel) = maskCols (maskCol sim a) sel := rfl
    rw [h1, ih, maskCol_getD, set_bot_getD]
    by_cases h1 : c ∈ sel <;> by_cases h2 : c = a <;>
      simp [h1, h2, List.mem_cons]

lemma maskCols_getD_length (sel : List ℕ) (sim : List (List EScore)) (i : ℕ) :
    ((maskCols sim sel).getD i []).length = (sim.getD i []).length := by
  induction sel generalizing sim with
  | nil => simp [maskCols]
  | cons a sel ih =>
    have h1 : maskCols sim (a :: sel) = maskCols (maskCol sim a) sel := rfl
    rw [h1, ih, maskCol_getD]
    simp

lemma maskCols_append_singleton (sim : List (List EScore)) (sel : List ℕ)
    (j : ℕ) : maskCols sim (sel ++ [j]) = maskCol (maskCols sim sel) j := by
  simp [maskCols, List.foldl_append]

lemma exists_not_mem_of_length_lt {sel : List ℕ} {n : ℕ} (h : sel.length < n) :
    ∃ j, j < n ∧ j ∉ sel := by
  by_contra hc
  push_neg at hc
  have hsub : List.range n ⊆ sel := fun j hj => hc j (List.mem_range.mp hj)
  have h1 := ((List.nodup_range n).subperm hsub).length_le
  rw [List.length_range] at h1
  omega

lemma scoresList_length (lbd : ℚ) (q : List ℚ) (sel : List ℕ)
    (sim : List (List EScore)) : (scoresList lbd q sel sim).length = q.length := by
  simp [scoresList]

lemma scoresList_getD {lbd : ℚ} {q : List ℚ} (sel : List ℕ)
    (sim : List (List EScore)) {i : ℕ} (hi : i < q.length) :
    (scoresList lbd q sel sim).getD i ⊥ =
      if i ∈ sel then ⊥
      else mmrScore lbd (q.getD i 0) (rowMax (sim.getD i [])) := by
  rw [List.getD_eq_getElem?_getD, scoresList, List.getElem?_map,
    List.getElem?_range hi]
  rfl

lemma toEMatrix_getD (sim : List (List ℚ)) (i : ℕ) :
    (toEMatrix sim).getD i [] = (sim.getD i []).map toE := by
  induction sim generalizing i with
  | nil => cases i <;> simp [toEMatrix]
  | cons r s ih =>
    cases i with
    | zero => simp [toEMatrix]
    | succ i => simpa [toEMatrix] using ih i

lemma map_coe_getD {row : List ℚ} {c : ℕ} (hc : c < row.length) :
    (row.map toE).getD c ⊥ = toE (row.getD c 0) := by
  rw [List.getD_eq_getElem?_getD, List.getElem?_map, List.getElem?_eq_getElem hc,
    List.getD_eq_getElem?_getD, List.getElem?_eq_getElem hc]
  rfl

lemma toE_ne_bot (x : ℚ) : toE x ≠ ⊥ := WithBot.coe_ne_bot

lemma getD_bot_mem {l : List EScore} {i : ℕ} (h : i < l.length) :
    l.getD i ⊥ ∈ l := by
  rw [List.getD_eq_getElem?_getD, List.getElem?_eq_getElem h]
  exact List.getElem_mem h

lemma mmrScore_ne_bot {lbd q0 : ℚ} {m : EScore} (h : m ≠ ⊥) :
    mmrScore lbd q0 m ≠ ⊥ := by
  cases m with
  | none => exact absurd rfl h
  | some r => exact WithBot.coe_ne_bot

lemma rowMax_masked_ne_bot {q : List ℚ} {sim0 : List (List ℚ)}
    (hsq : Square q sim0) {sel : List ℕ} {i c : ℕ} (hi : i < q.length)
    (hc : c < q.length) (hcs : c ∉ sel) :
    rowMax ((maskCols (toEMatrix sim0) sel).getD i []) ≠ ⊥ := by
  have hrow : (sim0.getD i []) ∈ sim0 := by
    have hi' : i < sim0.length := by rw [hsq.1]; exact hi
    rw [List.getD_eq_getElem?_getD, List.getElem?_eq_getElem hi']
    exact List.getElem_mem hi'
  have hrl : (sim0.getD i []).length = q.length := hsq.2 _ hrow
  have hval : ((maskCols (toEMatrix sim0) sel).getD i []).getD c ⊥ =
      toE ((sim0.getD i []).getD c 0) := by
    rw [maskCols_getD_getD, if_neg hcs, toEMatrix_getD, map_coe_getD]
    rw [hrl]; exact hc
  have hlen : c < ((maskCols (toEMatrix sim0) sel).getD i []).length := by
    rw [maskCols_getD_length, toEMatrix_getD, List.length_map, hrl]
    exact hc
  have hle := le_rowMax_of_mem (getD_bot_mem hlen)
  rw [hval] at hle
  intro hbot
  rw [hbot, le_bot_iff] at hle
  exact toE_ne_bot _ hle

lemma scores_argmax_step (lbd : ℚ) {q : List ℚ} {sim0 : List (List ℚ)}
    (hsq : Square q sim0) {sel : List ℕ} (hlen : sel.length < q.length) :
    argmax (scoresList lbd q sel (maskCols (toEMatrix sim0) sel)) < q.length ∧
    argmax (scoresList lbd q sel (maskCols (toEMatrix sim0) sel)) ∉ sel := by
  set scores := scoresList lbd q sel (maskCols (toEMatrix sim0) sel) with hs
  have hslen : scores.length = q.length := scoresList_length ..
  have hne : scores ≠ [] := by
    intro h0
    rw [h0] at hslen
    simp at hslen
    omega
  obtain ⟨c, hcn, hcns⟩ := exists_not_mem_of_length_lt hlen
  have hscorec : scores.getD c ⊥ ≠ ⊥ := by
    rw [hs, scoresList_getD sel _ hcn, if_neg hcns]
    exact mmrScore_ne_bot (rowMax_masked_ne_bot hsq hcn hcn hcns)
  have hmaxne : rowMax scores ≠ ⊥ := by
    intro hbot
    have := le_rowMax_of_mem (getD_bot_mem (by rw [hslen]; exact hcn))
    rw [hbot, le_bot_iff] at this
    exact hscorec this
  have hj : argmax scores < q.length := by
    rw [← hslen]; exact argmax_lt_length hne
  refine ⟨hj, fun hjsel => ?_⟩
  have := getD_argmax hne
  rw [hs, scoresList_getD sel _ hj, if_pos hjsel] at this
  exact hmaxne this.symm

lemma mmrLoop_nodup (lbd : ℚ) (q : List ℚ) (sim0 : List (List ℚ))
    (hsq : Square q sim0) :
    ∀ (fuel : ℕ) (sel : List ℕ), sel.Nodup → (∀ x ∈ sel, x < q.length) →
    sel.length + fuel ≤ q.length →
    ((mmrLoop lbd q fuel (sel, maskCols (toEMatrix sim0) sel)).1).Nodup ∧
    (∀ x ∈ (mmrLoop lbd q fuel (sel, maskCols (toEMatrix sim0) sel)).1,
      x < q.length) := by
  intro fuel
  induction fuel with
  | zero => exact fun sel h1 h2 _ => ⟨h1, h2⟩
  | succ f ih =>
    intro sel hnd hlt hlen
    obtain ⟨hjn, hjs⟩ := scores_argmax_step lbd hsq
      (show sel.length < q.length by omega)
    set j := argmax (scoresList lbd q sel (maskCols (toEMatrix sim0) sel))
      with hjdef
    have heq : mmrLoop lbd q (f + 1) (sel, maskCols (toEMatrix sim0) sel)
        = mmrLoop lbd q f (sel ++ [j], maskCols (toEMatrix sim0) (sel ++ [j])) := by
      simp only [mmrLoop, maskCols_append_singleton]
    rw [heq]
    refine ih (sel ++ [j]) ?_ ?_ ?_
    · rw [List.nodup_append]
      refine ⟨hnd, List.nodup_singleton j, fun a ha hb => ?_⟩
      rw [List.mem_singleton] at hb
      subst hb
      exact hjs ha
    · intro x hx
      rcases List.mem_append.mp hx with h | h
      · exact hlt x h
      · rw [List.mem_singleton] at h; subst h; exact hjn
    · rw [List.length_append, List.length_singleton]
      omega

lemma rerank_as_mmrLoop (lbd : ℚ) (q : List ℚ) (sim : List (List ℚ)) (k : ℤ) :
    MaximalMarginalRelevance.rerank ⟨lbd⟩ q sim k
      = (mmrLoop lbd q ((min k (q.length : ℤ)) - 1).toNat
          ([argmax (q.map toE)],
            maskCols (toEMatrix sim) [argmax (q.map toE)])).1 := rfl

/-- C1: on the spec's example (quality `[0.9, 0.8, 0.7]`, similarity
`[[0,0.9,0.1],[0.9,0,0.1],[0.1,0.1,0]]`, `λ = 1/2`, `k = 2`) the code selects
index `1` second, not index `2`: it masks the *selected* column and therefore
penalises the maximal similarity towards the *unselected* items, while MMR (and
the spec's own arithmetic) penalises similarity towards the selected set. -/
theorem C1_rerank_spec_example_returns_0_1 :
    MaximalMarginalRelevance.rerank ⟨1/2⟩ [9/10, 8/10, 7/10]
      [[0, 9/10, 1/10], [9/10, 0, 1/10], [1/10, 1/10, 0]] 2 = [0, 1] ∧
    MaximalMarginalRelevance.rerank ⟨1/2⟩ [9/10, 8/10, 7/10]
      [[0, 9/10, 1/10], [9/10, 0, 1/10], [1/10, 1/10, 0]] 2 ≠ [0, 2] := by
  with_unfolding_all decide

/-- C4, counterexample: with one candidate and `k = 0` the code still returns
the singleton selection `[0]`, not an empty sequence. -/
theorem C4_counterexample :
    MaximalMarginalRelevance.rerank ⟨1/2⟩ [1] [[0]] 0 ≠ [] := by
  with_unfolding_all decide

/-- C4 (amended): for `k ≤ 0` (in fact for all `k ≤ 1`) the `range(k-1)` loop
body never runs, and `rerank` returns the single-element sequence holding the
quality argmax — never an empty sequence. -/
theorem C4_rerank_nonpos_k (lbd : ℚ) (q : List ℚ) (sim : List (List ℚ))
    (k : ℤ) (hq : q ≠ []) (hk : k ≤ 0) :
    MaximalMarginalRelevance.rerank ⟨lbd⟩ q sim k = [argmax (q.map toE)] := by
  have hmin : min k (q.length : ℤ) ≤ k := min_le_left ..
  have h0 : ((min k (q.length : ℤ)) - 1).toNat = 0 := by omega
  rw [rerank_as_mmrLoop, h0]
  rfl

/-- C4, witness for the amended theorem. -/
theorem C4_witness :
    MaximalMarginalRelevance.rerank ⟨1/2⟩ [(1:ℚ)] [[0]] (-3)
      = [argmax ([(1:ℚ)].map toE)] :=
  C4_rerank_nonpos_k (1/2) [(1:ℚ)] [[0]] (-3) (by decide) (by decide)

/-- C6, counterexample: for `k = 0` the output still has length `1`, not
`min(k, n) = 0`. -/
theorem C6_counterexample :
    ¬ ((MaximalMarginalRelevance.rerank ⟨1/2⟩ [2] [[0]] 0).length
        = (min (0:ℤ) (([2] : List ℚ).length : ℤ)).toNat) := by
  with_unfolding_all decide

/-- C6 (amended: `k ≥ 1`; for `k ≤ 0` the output is the singleton quality
argmax): for a nonempty finite quality vector, an `n × n` finite similarity
matrix and `k ≥ 1`, no index appears twice in the output of `rerank` and the
output length is `min(k, n)`. -/
theorem C6_rerank_nodup_length (lbd : ℚ) (q : List ℚ) (sim : List (List ℚ))
    (k : ℤ) (hq : q ≠ []) (hsq : Square q sim) (hk : 1 ≤ k) :
    (MaximalMarginalRelevance.rerank ⟨lbd⟩ q sim k).Nodup ∧
    (MaximalMarginalRelevance.rerank ⟨lbd⟩ q sim k).length
      = (min k (q.length : ℤ)).toNat := by
  have hn : 1 ≤ q.length := List.length_pos.mpr hq
  have hmin1 : 1 ≤ min k (q.length : ℤ) :=
    le_min hk (by exact_mod_cast hn)
  have hminn : min k (q.length : ℤ) ≤ (q.length : ℤ) := min_le_right ..
  have hfirst : argmax (q.map toE) < q.length := by
    have : (q.map toE) ≠ [] := by
      intro h
      exact hq (List.map_eq_nil_iff.mp h)
    have := argmax_lt_length this
    rwa [List.length_map] at this
  rw [rerank_as_mmrLoop]
  have hinv := mmrLoop_nodup lbd q sim hsq ((min k (q.length : ℤ)) - 1).toNat
    [argmax (q.map toE)] (List.nodup_singleton _)
    (by intro x hx; rw [List.mem_singleton] at hx; subst hx; exact hfirst)
    (by simp only [List.length_singleton]; omega)
  refine ⟨hinv.1, ?_⟩
  rw [mmrLoop_fst_length]
  simp only [List.length_singleton]
  omega

/-- C6, witness for the amended theorem. -/
theorem C6_witness :
    (MaximalMarginalRelevance.rerank ⟨1/2⟩ [1, 2] [[0, 0], [0, 0]] 1).Nodup ∧
    (MaximalMarginalRelevance.rerank ⟨1/2⟩ [1, 2] [[0, 0], [0, 0]] 1).length
      = (min (1:ℤ) (([1, 2] : List ℚ).length : ℤ)).toNat :=
  C6_rerank_nodup_length (1/2) [1, 2] [[0, 0], [0, 0]] 1 (by decide)
    ⟨by decide, by decide⟩ (by decide)

lemma toE_le_toE {a b : ℚ} : toE a ≤ toE b ↔ a ≤ b := WithBot.coe_le_coe

lemma toE_lt_toE {a b : ℚ} : toE a < toE b ↔ a < b := WithBot.coe_lt_coe

lemma mmrScore_one (q0 : ℚ) (m : EScore) (h : m ≠ ⊥) :
    mmrScore 1 q0 m = toE q0 := by
  cases m with
  | none => exact absurd rfl h
  | some r =>
    show mmrScore 1 q0 (toE r) = toE q0
    simp only [mmrScore, toE]
    norm_num

lemma scoresList_one_getD {q : List ℚ} {sim0 : List (List ℚ)}
    (hsq : Square q sim0) {sel : List ℕ} (hlen : sel.length < q.length)
    {i : ℕ} (hi : i < q.length) :
    (scoresList 1 q sel (maskCols (toEMatrix sim0) sel)).getD i ⊥
      = if i ∈ sel then ⊥ else toE (q.getD i 0) := by
  rw [scoresList_getD sel _ hi]
  by_cases hisel : i ∈ sel
  · simp [hisel]
  · obtain ⟨c, hcn, hcs⟩ := exists_not_mem_of_length_lt hlen
    rw [if_neg hisel, if_neg hisel]
    exact mmrScore_one _ _ (rowMax_masked_ne_bot hsq hi hcn hcs)

lemma argmax_dominates {q : List ℚ} {s : List EScore} (excl : List ℕ)
    (hlen : s.length = q.length)
    (hval : ∀ c, c < q.length → c ∉ excl → s.getD c ⊥ = toE (q.getD c 0))
    (hj : argmax s ∉ excl) :
    ∀ c, c < q.length → c ∉ excl → c ≠ argmax s → qBefore q (argmax s) c := by
  intro c hc hce hcj
  have hne : s ≠ [] := by
    intro h
    rw [h] at hlen
    simp at hlen
    omega
  have hjn : argmax s < q.length := by
    rw [← hlen]; exact argmax_lt_length hne
  have hsmax : s.getD (argmax s) ⊥ = rowMax s := getD_argmax hne
  have hjval : s.getD (argmax s) ⊥ = toE (q.getD (argmax s) 0) := hval _ hjn hj
  have hcval : s.getD c ⊥ = toE (q.getD c 0) := hval _ hc hce
  have hle : q.getD c 0 ≤ q.getD (argmax s) 0 := by
    have hmem := le_rowMax_of_mem (getD_bot_mem (show c < s.length by omega))
    rw [hcval, ← hsmax, hjval] at hmem
    exact toE_le_toE.mp hmem
  by_cases hlt : q.getD c 0 < q.getD (argmax s) 0
  · exact Or.inl hlt
  · have heq : q.getD (argmax s) 0 = q.getD c 0 :=
      le_antisymm (not_lt.mp hlt) hle
    refine Or.inr ⟨heq, ?_⟩
    by_contra hgt
    push_neg at hgt
    have hlt2 := getD_lt_rowMax_of_lt_argmax hgt
    rw [hcval, ← hsmax, hjval, heq] at hlt2
    exact lt_irrefl _ (toE_lt_toE.mp hlt2)

lemma mmrLoop_one_pairwise (q : List ℚ) (sim0 : List (List ℚ))
    (hsq : Square q sim0) :
    ∀ (fuel : ℕ) (sel : List ℕ),
      (∀ x ∈ sel, x < q.length) → sel.length + fuel ≤ q.length →
      sel.Pairwise (qBefore q) →
      (∀ i ∈ sel, ∀ j, j < q.length → j ∉ sel → qBefore q i j) →
      ((mmrLoop 1 q fuel (sel, maskCols (toEMatrix sim0) sel)).1).Pairwise
        (qBefore q) := by
  intro fuel
  induction fuel with
  | zero => exact fun sel _ _ hpw _ => hpw
  | succ f ih =>
    intro sel hlt hlen hpw hdom
    obtain ⟨hjn, hjs⟩ := scores_argmax_step 1 hsq
      (show sel.length < q.length by omega)
    set j := argmax (scoresList 1 q sel (maskCols (toEMatrix sim0) sel))
      with hjdef
    have heq : mmrLoop 1 q (f + 1) (sel, maskCols (toEMatrix sim0) sel)
        = mmrLoop 1 q f (sel ++ [j], maskCols (toEMatrix sim0) (sel ++ [j])) := by
      simp only [mmrLoop, maskCols_append_singleton]
    rw [heq]
    have hjd : ∀ c, c < q.length → c ∉ sel → c ≠ j → qBefore q j c := by
      rw [hjdef]
      exact argmax_dominates sel
        (by rw [scoresList_length])
        (fun c hc hce => by
          rw [scoresList_one_getD hsq (show sel.length < q.length by omega) hc,
            if_neg hce])
        hjs
    refine ih (sel ++ [j]) ?_ ?_ ?_ ?_
    · intro x hx
      rcases List.mem_append.mp hx with h | h
      · exact hlt x h
      · rw [List.mem_singleton] at h; subst h; exact hjn
    · rw [List.length_append, List.length_singleton]; omega
    · rw [List.pairwise_append]
      refine ⟨hpw, List.pairwise_singleton _ _, fun a ha b hb => ?_⟩
      rw [List.mem_singleton] at hb
      subst hb
      exact hdom a ha j hjn hjs
    · intro i hi c hc hce
      have hce1 : c ∉ sel := fun h => hce (List.mem_append.mpr (Or.inl h))
      have hce2 : c ≠ j := by
        intro h
        exact hce (List.mem_append.mpr (Or.inr (by rw [h]; exact List.mem_singleton_self _)))
      rcases List.mem_append.mp hi with h | h
      · exact hdom i h c hc hce1
      · rw [List.mem_singleton] at h
        subst h
        exact hjd c hc hce1 hce2

lemma perm_range_of_nodup_lt {l : List ℕ} {n : ℕ} (hnd : l.Nodup)
    (hlt : ∀ x ∈ l, x < n) (hlen : l.length = n) : l.Perm (List.range n) := by
  have hsub : l ⊆ List.range n := fun x hx => List.mem_range.mpr (hlt x hx)
  obtain ⟨l', hperm, hsl⟩ := hnd.subperm hsub
  have hleq : l'.length = (List.range n).length := by
    rw [hperm.length_eq, hlen, List.length_range]
  have heq := hsl.eq_of_length hleq
  rw [heq] at hperm
  exact hperm.symm

lemma rerank_one_eq_specDescOrder (q : List ℚ) (sim : List (List ℚ))
    (hq : q ≠ []) (hsq : Square q sim) :
    MaximalMarginalRelevance.rerank ⟨1⟩ q sim (q.length : ℤ) = specDescOrder q := by
  have hn : 1 ≤ q.length := List.length_pos.mpr hq
  have hfirst : argmax (q.map toE) < q.length := by
    have hne : (q.map toE) ≠ [] := by
      intro h; exact hq (List.map_eq_nil_iff.mp h)
    have := argmax_lt_length hne
    rwa [List.length_map] at this
  have hfuel : ((min ((q.length : ℤ)) ((q.length : ℤ))) - 1).toNat
      = q.length - 1 := by rw [min_self]; omega
  rw [rerank_as_mmrLoop, hfuel]
  set out := (mmrLoop 1 q (q.length - 1)
    ([argmax (q.map toE)],
      maskCols (toEMatrix sim) [argmax (q.map toE)])).1 with hout
  have hbase_lt : ∀ x ∈ [argmax (q.map toE)], x < q.length := by
    intro x hx
    rw [List.mem_singleton] at hx
    subst hx
    exact hfirst
  have hbase_len : ([argmax (q.map toE)]).length + (q.length - 1) ≤ q.length := by
    rw [List.length_singleton]; omega
  have hnodup := mmrLoop_nodup 1 q sim hsq (q.length - 1)
    [argmax (q.map toE)] (List.nodup_singleton _) hbase_lt hbase_len
  have hlength : out.length = q.length := by
    rw [hout, mmrLoop_fst_length, List.length_singleton]
    omega
  have hbase_dom : ∀ i ∈ [argmax (q.map toE)], ∀ j, j < q.length →
      j ∉ [argmax (q.map toE)] → qBefore q i j := by
    intro i hi j hjq hjs
    rw [List.mem_singleton] at hi
    subst hi
    have hjne : j ≠ argmax (q.map toE) := fun h => hjs (by rw [h]; exact List.mem_singleton_self _)
    refine argmax_dominates [] (List.length_map ..) ?_
      (List.not_mem_nil _) j hjq (List.not_mem_nil _) hjne
    intro c hc _
    exact map_coe_getD hc
  have hpw := mmrLoop_one_pairwise q sim hsq (q.length - 1)
    [argmax (q.map toE)] hbase_lt hbase_len
    (List.pairwise_singleton _ _) hbase_dom
  have hperm : out.Perm (List.range q.length) :=
    perm_range_of_nodup_lt hnodup.1 hnodup.2 hlength
  have hsorted_out : List.Sorted (qBefore q) out := hpw
  have hsorted_spec : List.Sorted (qBefore q) (specDescOrder q) :=
    List.sorted_insertionSort _ _
  have hperm_spec : out.Perm (specDescOrder q) :=
    hperm.trans (List.perm_insertionSort _ _).symm
  exact List.eq_of_perm_of_sorted hperm_spec hsorted_out hsorted_spec

/-- C5, counterexample: for `k = 0` the claim fails — the output is the
singleton quality argmax `[1]`, not the empty prefix of the descending order. -/
theorem C5_counterexample :
    ¬ (MaximalMarginalRelevance.rerank ⟨1⟩ [1, 2] [[0, 0], [0, 0]] 0
        = (specDescOrder [1, 2]).take
            (min (0:ℤ) (([1, 2] : List ℚ).length : ℤ)).toNat) := by
  with_unfolding_all decide

/-- C5 (amended: `k ≥ 1`): with λ = 1, a nonempty finite quality vector and an
`n × n` finite similarity matrix, `rerank` returns the first `min(k, n)`
indices of the descending order of the quality scores (similarity ignored,
ties broken by lowest index first). -/
theorem C5_rerank_lambda_one (q : List ℚ) (sim : List (List ℚ)) (k : ℤ)
    (hq : q ≠ []) (hsq : Square q sim) (hk : 1 ≤ k) :
    MaximalMarginalRelevance.rerank ⟨1⟩ q sim k
      = (specDescOrder q).take (min k (q.length : ℤ)).toNat := by
  have hn : 1 ≤ q.length := List.length_pos.mpr hq
  have hmin1 : 1 ≤ min k (q.length : ℤ) := le_min hk (by exact_mod_cast hn)
  have hminn : min k (q.length : ℤ) ≤ (q.length : ℤ) := min_le_right ..
  have hfull := rerank_one_eq_specDescOrder q sim hq hsq
  rw [rerank_as_mmrLoop] at hfull ⊢
  have hfn : ((min ((q.length : ℤ)) ((q.length : ℤ))) - 1).toNat
      = q.length - 1 := by rw [min_self]; omega
  rw [hfn] at hfull
  set st0 := ([argmax (q.map toE)],
    maskCols (toEMatrix sim) [argmax (q.map toE)]) with hst0
  set f1 := ((min k (q.length : ℤ)) - 1).toNat with hf1
  have hf1le : f1 ≤ q.length - 1 := by omega
  have hdecomp : q.length - 1 = f1 + (q.length - 1 - f1) := by omega
  rw [hdecomp, mmrLoop_add] at hfull
  have hpre := prefix_mmrLoop 1 q (q.length - 1 - f1) (mmrLoop 1 q f1 st0)
  rw [hfull] at hpre
  have hlen : ((mmrLoop 1 q f1 st0).1).length = 1 + f1 := by
    rw [mmrLoop_fst_length, hst0, List.length_singleton]
  rw [List.prefix_iff_eq_take] at hpre
  rw [hpre, hlen]
  congr 1
  omega

/-- C5, witness for the amended theorem. -/
theorem C5_witness :
    MaximalMarginalRelevance.rerank ⟨1⟩ [1, 2] [[0, 0], [0, 0]] 1
      = (specDescOrder [1, 2]).take
          (min (1:ℤ) (([1, 2] : List ℚ).length : ℤ)).toNat :=
  C5_rerank_lambda_one [1, 2] [[0, 0], [0, 0]] 1 (by decide)
    ⟨by decide, by decide⟩ (by decide)

lemma catCode_lt_card {γ : Type*} [LinearOrder γ] {l : List γ} {x : γ}
    (hx : x ∈ l) : catCode l x < l.toFinset.card := by
  apply Finset.card_lt_card
  rw [Finset.ssubset_iff_of_subset (Finset.filter_subset _ _)]
  exact ⟨x, List.mem_toFinset.mpr hx, by simp⟩

lemma catCode_strictMono {γ : Type*} [LinearOrder γ] {l : List γ} {x y : γ}
    (hx : x ∈ l) (hy : y ∈ l) (hxy : x < y) : catCode l x < catCode l y := by
  apply Finset.card_lt_card
  have hsub : l.toFinset.filter (fun z => z < x)
      ⊆ l.toFinset.filter (fun z => z < y) :=
    Finset.monotone_filter_right _ (fun z hz => lt_trans hz hxy)
  rw [Finset.ssubset_iff_of_subset hsub]
  refine ⟨x, Finset.mem_filter.mpr ⟨List.mem_toFinset.mpr hx, hxy⟩, ?_⟩
  simp

lemma catCode_inj {γ : Type*} [LinearOrder γ] {l : List γ} {x y : γ}
    (hx : x ∈ l) (hy : y ∈ l) (h : catCode l x = catCode l y) : x = y := by
  rcases lt_trichotomy x y with hlt | heq | hgt
  · exact absurd h (Nat.ne_of_lt (catCode_strictMono hx hy hlt))
  · exact heq
  · exact absurd h.symm (Nat.ne_of_lt (catCode_strictMono hy hx hgt))

lemma catCode_surj {γ : Type*} [LinearOrder γ] (l : List γ) {c : ℕ}
    (hc : c < l.toFinset.card) : ∃ x ∈ l, catCode l x = c := by
  have himg : l.toFinset.image (catCode l) = Finset.range l.toFinset.card := by
    apply Finset.eq_of_subset_of_card_le
    · intro c' hc'
      rw [Finset.mem_image] at hc'
      obtain ⟨x, hx, hxc⟩ := hc'
      rw [Finset.mem_range, ← hxc]
      exact catCode_lt_card (List.mem_toFinset.mp hx)
    · rw [Finset.card_range, Finset.card_image_of_injOn]
      intro x hx y hy hxy
      exact catCode_inj (List.mem_toFinset.mp hx) (List.mem_toFinset.mp hy) hxy
  have hcmem : c ∈ Finset.range l.toFinset.card := Finset.mem_range.mpr hc
  rw [← himg, Finset.mem_image] at hcmem
  obtain ⟨x, hx, hxc⟩ := hcmem
  exact ⟨x, List.mem_toFinset.mp hx, hxc⟩

lemma le_foldr_max {l : List ℕ} {x : ℕ} (hx : x ∈ l) : x ≤ l.foldr max 0 := by
  induction l with
  | nil => cases hx
  | cons a t ih =>
    rcases List.mem_cons.mp hx with h | h
    · subst h; exact le_max_left _ _
    · exact le_trans (ih h) (le_max_right _ _)

lemma df_user_lt (rec : BaseRecommender α β) :
    ∀ r ∈ rec.df_interaction, r.1 < rec.n_users := by
  intro r hr
  have hm : r.1 ∈ rec.df_interaction.map (fun r => r.1) :=
    List.mem_map_of_mem _ hr
  have := le_foldr_max hm
  rw [BaseRecommender.n_users]
  omega

lemma df_item_lt (rec : BaseRecommender α β) :
    ∀ r ∈ rec.df_interaction, r.2.1 < rec.n_items := by
  intro r hr
  have hm : r.2.1 ∈ rec.df_interaction.map (fun r => r.2.1) :=
    List.mem_map_of_mem _ hr
  have := le_foldr_max hm
  rw [BaseRecommender.n_items]
  omega

lemma predict_unseen_length (rec : BaseRecommender α β) (u : ℕ) :
    (rec.predict_for_userId_unseen u).length = rec.n_items := by
  rw [BaseRecommender.predict_for_userId_unseen, List.length_map,
    List.length_range]

lemma predict_unseen_getD (rec : BaseRecommender α β) (u : ℕ) {i : ℕ}
    (hi : i < rec.n_items) :
    (rec.predict_for_userId_unseen u).getD i ⊥
      = if i ∈ rec.seenItems u then ⊥ else toE (rec.scorer u i) := by
  rw [BaseRecommender.predict_for_userId_unseen, List.getD_eq_getElem?_getD,
    List.getElem?_map, List.getElem?_range hi]
  rfl

/-- C2, counterexample: for the raw table `[(1, 0, 1), (0, 0, 1)]` the
normalization assigns user codes `[1, 0]` (sorted order of the raw IDs), while
first-seen coding would assign `[0, 1]`: the first distinct raw user ID
encountered (`1`) does *not* receive code `0`. -/
theorem C2_counterexample :
    (get_interaction [((1:ℕ), (0:ℕ), (1:ℚ)), ((0:ℕ), (0:ℕ), (1:ℚ))]).map
        (fun r => r.1) = [1, 0] ∧
    ([((1:ℕ), (0:ℕ), (1:ℚ)), ((0:ℕ), (0:ℕ), (1:ℚ))].map
        (fun r => firstSeenCode
          ([((1:ℕ), (0:ℕ), (1:ℚ)), ((0:ℕ), (0:ℕ), (1:ℚ))].map (fun p => p.1))
          r.1)) = [0, 1] ∧
    ([1, 0] : List ℕ) ≠ [0, 1] := by
  with_unfolding_all decide

/-- C2 (amended: codes follow the ascending *sorted* order of the distinct raw
IDs — pandas `Categorical` sorts its categories — not first-seen order): the
normalization maps the user column and the item column through `catCode`, and
`catCode` is a dense zero-based coding ordered like the raw values, separately
for users and for items. -/
theorem C2_codes_dense_sorted {α β : Type*} [LinearOrder α] [LinearOrder β]
    (rows : List (α × β × ℚ)) :
    ((get_interaction rows).map (fun r => r.1)
        = rows.map (fun r => catCode (rows.map (fun p => p.1)) r.1)) ∧
    ((get_interaction rows).map (fun r => r.2.1)
        = rows.map (fun r => catCode (rows.map (fun p => p.2.1)) r.2.1)) ∧
    DenseSortedCoding (rows.map (fun p => p.1)) ∧
    DenseSortedCoding (rows.map (fun p => p.2.1)) := by
  refine ⟨?_, ?_, ?_, ?_⟩
  · rw [get_interaction, List.map_map]
    rfl
  · rw [get_interaction, List.map_map]
    rfl
  · exact ⟨fun x hx => catCode_lt_card hx,
      fun x hx y hy h => catCode_strictMono hx hy h,
      fun x hx y hy h => catCode_inj hx hy h,
      fun c hc => catCode_surj _ hc⟩
  · exact ⟨fun x hx => catCode_lt_card hx,
      fun x hx y hy h => catCode_strictMono hx hy h,
      fun x hx y hy h => catCode_inj hx hy h,
      fun c hc => catCode_surj _ hc⟩

/-- C2, witness: the amended theorem applied to a concrete table. -/
theorem C2_witness :
    ((get_interaction [((1:ℕ), (0:ℕ), (1:ℚ)), ((0:ℕ), (0:ℕ), (1:ℚ))]).map
        (fun r => r.1)
      = [((1:ℕ), (0:ℕ), (1:ℚ)), ((0:ℕ), (0:ℕ), (1:ℚ))].map
          (fun r => catCode
            ([((1:ℕ), (0:ℕ), (1:ℚ)), ((0:ℕ), (0:ℕ), (1:ℚ))].map (fun p => p.1))
            r.1)) ∧
    DenseSortedCoding
      ([((1:ℕ), (0:ℕ), (1:ℚ)), ((0:ℕ), (0:ℕ), (1:ℚ))].map (fun p => p.1)) :=
  ⟨(C2_codes_dense_sorted [((1:ℕ), (0:ℕ), (1:ℚ)), ((0:ℕ), (0:ℕ), (1:ℚ))]).1,
   (C2_codes_dense_sorted [((1:ℕ), (0:ℕ), (1:ℚ)), ((0:ℕ), (0:ℕ), (1:ℚ))]).2.2.1⟩

/-- C7: both coo matrices are constructed with the explicit shape
`(n_users, n_items)`, where `n_users` and `n_items` are one plus the maximum
dense code over the *entire* normalized table (computed before any split and
independent of the split policy), and every dense code in the table — hence
every code appearing in train or in test — is within that shape. -/
theorem C7_train_test_shape (rec : BaseRecommender α β)
    (hne : rec.raw_interaction ≠ []) :
    rec.train_mat.shape = (rec.n_users, rec.n_items) ∧
    rec.test_mat.shape = (rec.n_users, rec.n_items) ∧
    rec.n_users = (rec.df_interaction.map (fun r => r.1)).foldr max 0 + 1 ∧
    rec.n_items = (rec.df_interaction.map (fun r => r.2.1)).foldr max 0 + 1 ∧
    ∀ r ∈ rec.df_interaction, r.1 < rec.n_users ∧ r.2.1 < rec.n_items :=
  ⟨rfl, rfl, rfl, rfl, fun r hr => ⟨df_user_lt rec r hr, df_item_lt rec r hr⟩⟩

/-- C7, witness. -/
theorem C7_witness :
    rec0.train_mat.shape = (rec0.n_users, rec0.n_items) ∧
    rec0.test_mat.shape = (rec0.n_users, rec0.n_items) :=
  ⟨(C7_train_test_shape rec0 (by decide)).1,
   (C7_train_test_shape rec0 (by decide)).2.1⟩

lemma n_users_pos (rec : BaseRecommender α β) : 1 ≤ rec.n_users := by
  rw [BaseRecommender.n_users]
  omega

lemma seenItems_invalid_user (rec : BaseRecommender α β) {user_id : ℕ}
    (hu : rec.n_users - 1 < user_id) : rec.seenItems user_id = [] := by
  rw [BaseRecommender.seenItems]
  have hfil : rec.df_interaction.filter (fun r => r.1 == user_id) = [] := by
    rw [List.filter_eq_nil_iff]
    intro r hr
    have h1 := df_user_lt rec r hr
    have h2 := n_users_pos rec
    simp only [beq_iff_eq]
    omega
  rw [hfil]
  rfl

/-- C3, counterexample: with one user (codes `{0}`, so `numUsers - 1 = 0`) and
`user_id = 5`, `predict_top_n_unseen` does *not* fail: the code performs no
user validation (no `InvalidUserError` exists in the code base) and returns a
normal result. -/
theorem C3_counterexample :
    rec0.predict_top_n_unseen 5 1 = Except.ok [(0, toE 0)] := by
  with_unfolding_all rfl

/-- C3 (amended): `predict_top_n_unseen` performs no user-id validation and
never raises an `InvalidUserError`.  For `user_id > numUsers - 1` (and `top_n`
inside numpy's valid `kth` range) it returns normally: the unknown user has an
empty seen set, so every score it ranks is the scorer's raw output. -/
theorem C3_no_invalid_user_error (rec : BaseRecommender α β)
    (user_id top_n : ℕ) (hu : rec.n_users - 1 < user_id)
    (htop : top_n < rec.n_items) :
    rec.seenItems user_id = [] ∧
    rec.predict_top_n_unseen user_id top_n
      = Except.ok (((rec.partitionOracle
            (rec.predict_for_userId_unseen user_id) top_n).take top_n).map
          (fun key => (key,
            (rec.predict_for_userId_unseen user_id).getD key ⊥))) ∧
    ∀ key, key < rec.n_items →
      (rec.predict_for_userId_unseen user_id).getD key ⊥
        = toE (rec.scorer user_id key) := by
  refine ⟨seenItems_invalid_user rec hu, ?_, ?_⟩
  · simp only [BaseRecommender.predict_top_n_unseen]
    rw [predict_unseen_length, if_pos htop]
  · intro key hk
    rw [predict_unseen_getD rec user_id hk, seenItems_invalid_user rec hu]
    simp

/-- C3, witness for the amended theorem. -/
theorem C3_witness :
    rec0.seenItems 5 = [] ∧
    rec0.predict_top_n_unseen 5 1
      = Except.ok (((rec0.partitionOracle
            (rec0.predict_for_userId_unseen 5) 1).take 1).map
          (fun key => (key, (rec0.predict_for_userId_unseen 5).getD key ⊥))) ∧
    ∀ key, key < rec0.n_items →
      (rec0.predict_for_userId_unseen 5).getD key ⊥
        = toE (rec0.scorer 5 key) :=
  C3_no_invalid_user_error rec0 5 1 (by with_unfolding_all decide)
    (by with_unfolding_all decide)

/-- C8: after `predict_for_userId_unseen(u)` the score of item `i` is `-inf`
exactly when the user interacted with `i` anywhere in the full normalized
interaction table (equivalently, given that train and test partition that
table, anywhere in train or test), and every other item keeps the scorer's
raw output. -/
theorem C8_unseen_masking (rec : BaseRecommender α β) (user_id i : ℕ)
    (hi : i < rec.n_items)
    (hsplit : (rec.trainTest.1 ++ rec.trainTest.2).Perm rec.df_interaction) :
    (rec.predict_for_userId_unseen user_id).getD i ⊥
      = if ∃ r ∈ rec.trainTest.1 ++ rec.trainTest.2, r.1 = user_id ∧ r.2.1 = i
        then ⊥ else toE (rec.scorer user_id i) := by
  rw [predict_unseen_getD rec user_id hi]
  refine if_congr ?_ rfl rfl
  rw [BaseRecommender.seenItems]
  constructor
  · intro h
    rw [List.mem_map] at h
    obtain ⟨r, hr, hri⟩ := h
    rw [List.mem_filter] at hr
    exact ⟨r, hsplit.mem_iff.mpr hr.1, beq_iff_eq.mp hr.2, hri⟩
  · rintro ⟨r, hr, hru, hri⟩
    rw [List.mem_map]
    exact ⟨r, List.mem_filter.mpr ⟨hsplit.mem_iff.mp hr, beq_iff_eq.mpr hru⟩,
      hri⟩

/-- C8, witness: user `0` interacted with item `0` in `rec0`, so its unseen
score is `-inf`. -/
theorem C8_witness :
    (rec0.predict_for_userId_unseen 0).getD 0 ⊥
      = if ∃ r ∈ rec0.trainTest.1 ++ rec0.trainTest.2, r.1 = 0 ∧ r.2.1 = 0
        then ⊥ else toE (rec0.scorer 0 0) :=
  C8_unseen_masking rec0 0 0 (by with_unfolding_all decide)
    (by with_unfolding_all decide)

lemma ratTrunc_props (v : ℚ) :
    |v - (ratTrunc v : ℚ)| < 1 ∧ |(ratTrunc v : ℚ)| ≤ |v| ∧
      (v.den ≠ 1 → (ratTrunc v : ℚ) ≠ v) := by
  by_cases hv : 0 ≤ v
  · rw [ratTrunc, if_pos hv]
    refine ⟨?_, ?_, ?_⟩
    · rw [abs_of_nonneg (by linarith [Int.floor_le v])]
      linarith [Int.lt_floor_add_one v]
    · rw [abs_of_nonneg (by exact_mod_cast Int.floor_nonneg.mpr hv),
        abs_of_nonneg hv]
      exact Int.floor_le v
    · intro hd heq
      exact hd (by rw [← heq]; exact Rat.den_intCast _)
  · have hv' : v < 0 := not_le.mp hv
    rw [ratTrunc, if_neg hv]
    refine ⟨?_, ?_, ?_⟩
    · rw [abs_of_nonpos (by linarith [Int.le_ceil v])]
      linarith [Int.ceil_lt_add_one v]
    · have hcle : ⌈v⌉ ≤ 0 := Int.ceil_le.mpr (by exact_mod_cast hv'.le)
      rw [abs_of_nonpos (by exact_mod_cast hcle), abs_of_nonpos hv'.le]
      exact neg_le_neg (Int.le_ceil v)
    · intro hd heq
      exact hd (by rw [← heq]; exact Rat.den_intCast _)

set_option maxRecDepth 2000 in
/-- C9, counterexample: `rec9`'s only interaction value `4294967297/2` is a
non-integer real, but the value its train matrix stores is *not* the integer
truncation `2^31 = 2147483648` — an int32 cannot hold it. -/
theorem C9_counterexample :
    ((4294967297/2 : ℚ)).den ≠ 1 ∧
    rec9.train_mat.entries
      = [(0, 0, int32cast (ratTrunc (4294967297/2 : ℚ)))] ∧
    int32cast (ratTrunc (4294967297/2 : ℚ)) ≠ ratTrunc (4294967297/2 : ℚ) := by
  with_unfolding_all decide

/-- C9 (amended: the `"int32"` dtype bounds the stored values): every stored
entry is the int32 reduction of the truncation-toward-zero of the
corresponding rational value; the reduction is the identity exactly on the
int32 range `[-2^31, 2^31)` — so every in-range truncation, in particular of
every in-range non-integer value, is stored exactly — every stored value lies
in that range, and truncation never moves a value by one or more, never
increases its magnitude, and changes every non-integer value. -/
theorem C9_int32_truncation (rec : BaseRecommender α β) :
    rec.train_mat.entries
      = rec.trainTest.1.map (fun r => (r.1, r.2.1, int32cast (ratTrunc r.2.2))) ∧
    rec.test_mat.entries
      = rec.trainTest.2.map (fun r => (r.1, r.2.1, int32cast (ratTrunc r.2.2))) ∧
    (∀ t : ℤ, -2147483648 ≤ t → t < 2147483648 → int32cast t = t) ∧
    (∀ t : ℤ, -2147483648 ≤ int32cast t ∧ int32cast t < 2147483648) ∧
    ∀ v : ℚ, |v - (ratTrunc v : ℚ)| < 1 ∧ |(ratTrunc v : ℚ)| ≤ |v| ∧
      (v.den ≠ 1 → (ratTrunc v : ℚ) ≠ v) :=
  ⟨rfl, rfl,
   fun t h1 h2 => by rw [int32cast]; omega,
   fun t => by rw [int32cast]; omega,
   ratTrunc_props⟩

/-- C9, witness: `rec0`'s value `7/2` truncates to the in-range `3`, which is
stored exactly and differs from the non-integer `7/2`. -/
theorem C9_witness :
    rec0.train_mat.entries
      = rec0.trainTest.1.map (fun r => (r.1, r.2.1, int32cast (ratTrunc r.2.2))) ∧
    int32cast (ratTrunc ((7:ℚ)/2)) = ratTrunc ((7:ℚ)/2) ∧
    |(7:ℚ)/2 - (ratTrunc ((7:ℚ)/2) : ℚ)| < 1 ∧
    (ratTrunc ((7:ℚ)/2) : ℚ) ≠ (7:ℚ)/2 :=
  ⟨(C9_int32_truncation rec0).1,
   (C9_int32_truncation rec0).2.2.1 (ratTrunc ((7:ℚ)/2))
     (by with_unfolding_all decide) (by with_unfolding_all decide),
   ((C9_int32_truncation rec0).2.2.2.2 ((7:ℚ)/2)).1,
   ((C9_int32_truncation rec0).2.2.2.2 ((7:ℚ)/2)).2.2
     (by with_unfolding_all decide)⟩

/-- C10: when the user's unseen items are fewer than `top_n` (with `top_n`
inside the valid item range), the mapping returned by `predict_top_n_unseen`
contains a previously seen item code with score `-inf`: seen items are masked,
never removed from the candidate pool. -/
theorem C10_seen_items_in_topn (rec : BaseRecommender α β)
    (user_id top_n : ℕ) (htop : top_n < rec.n_items)
    (hvalid : ValidArgpartition (rec.predict_for_userId_unseen user_id) top_n
      (rec.partitionOracle (rec.predict_for_userId_unseen user_id) top_n))
    (hfew : (rec.unseenItems user_id).length < top_n) :
    ∃ l, rec.predict_top_n_unseen user_id top_n = Except.ok l ∧
      ∃ pr ∈ l, pr.1 ∈ rec.seenItems user_id ∧ pr.2 = ⊥ := by
  set p := rec.predict_for_userId_unseen user_id with hp
  set pi := rec.partitionOracle p top_n with hpi
  have hplen : p.length = rec.n_items := predict_unseen_length ..
  have htop' : top_n < p.length := by omega
  have hperm := hvalid.1
  have hpilen : pi.length = p.length := by
    rw [hperm.length_eq, List.length_range]
  have hnodup : pi.Nodup := hperm.nodup_iff.mpr (List.nodup_range _)
  have htlen : (pi.take top_n).length = top_n := by
    rw [List.length_take]
    omega
  have htnodup : (pi.take top_n).Nodup :=
    List.Nodup.sublist (List.take_sublist _ _) hnodup
  have htlt : ∀ x ∈ pi.take top_n, x < rec.n_items := by
    intro x hx
    have hxpi : x ∈ pi := List.mem_of_mem_take hx
    have hxr := hperm.mem_iff.mp hxpi
    rw [List.mem_range] at hxr
    omega
  have hseen : ∃ a ∈ pi.take top_n, a ∈ rec.seenItems user_id := by
    by_contra hno
    push_neg at hno
    have hsub : pi.take top_n ⊆ rec.unseenItems user_id := by
      intro x hx
      rw [BaseRecommender.unseenItems, List.mem_filter]
      exact ⟨List.mem_range.mpr (htlt x hx), by simp [hno x hx]⟩
    have := (htnodup.subperm hsub).length_le
    omega
  obtain ⟨a, hat, has⟩ := hseen
  refine ⟨(pi.take top_n).map (fun key => (key, p.getD key ⊥)), ?_, ?_⟩
  · simp only [BaseRecommender.predict_top_n_unseen, ← hp, ← hpi]
    rw [if_pos htop']
  · refine ⟨(a, p.getD a ⊥), List.mem_map_of_mem _ hat, has, ?_⟩
    rw [hp, predict_unseen_getD rec user_id (htlt a hat), if_pos has]

/-- C10, witness: in `rec0` user `0` has seen both items, so with `top_n = 1`
the returned mapping holds a seen item with score `-inf`. -/
theorem C10_witness :
    ∃ l, rec0.predict_top_n_unseen 0 1 = Except.ok l ∧
      ∃ pr ∈ l, pr.1 ∈ rec0.seenItems 0 ∧ pr.2 = ⊥ :=
  C10_seen_items_in_topn rec0 0 1 (by with_unfolding_all decide)
    (by with_unfolding_all decide) (by with_unfolding_all decide)
